import Mathlib

/-!
Verification development for the BusTub storage core: the clock replacer
(`clock_replacer.cpp`), the buffer pool manager (`buffer_pool_manager.cpp`)
and the on-disk linear-probing hash table (`linear_probe_hash_table.cpp`).
The C++ sources are embedded shallowly: mutable state becomes explicit state
passing, `std::unordered_map` becomes an association list with unique keys,
and each unbounded `while` loop becomes a fuel-indexed recursion returning
`Option` (`none` meaning the loop has not terminated within the given fuel).
-/

namespace BusTub

/-! ## Association-list helpers (embedding `std::unordered_map`) -/

/-- Lookup in an association list (`map.count(k) > 0` / `map[k]` read). -/
def alookup {α β : Type} [DecidableEq α] : List (α × β) → α → Option β
  | [], _ => none
  | (k, v) :: rest, x => if k = x then some v else alookup rest x

/-- Update-or-append (`map[k] = v`). Keeps keys unique. -/
def ainsert {α β : Type} [DecidableEq α] : List (α × β) → α → β → List (α × β)
  | [], k, v => [(k, v)]
  | (k', v') :: rest, k, v =>
    if k' = k then (k, v) :: rest else (k', v') :: ainsert rest k v

/-- Key removal (`map.erase(k)`). -/
def aerase {α β : Type} [DecidableEq α] : List (α × β) → α → List (α × β)
  | [], _ => []
  | (k', v') :: rest, k =>
    if k' = k then rest else (k', v') :: aerase rest k

/-! ## ClockReplacer (`clock_replacer.cpp`)

State per frame is the pair `(pin_, ref_)`; the replacer also keeps the
cyclic hand `clock_hand_` and the unpinned counter `clock_size_`. -/

/-- Per-frame metadata `Meta {pin_, ref_}` of the clock replacer. -/
structure FrameMeta where
  pin : Bool
  ref : Bool
deriving DecidableEq

/-- `ClockReplacer` state: `frames_`, `clock_hand_`, `clock_size_`. -/
structure ClockReplacer where
  frames : List FrameMeta
  clockHand : Nat
  clockSize : Nat
deriving DecidableEq

/-- Constructor `ClockReplacer(num_pages)`: every frame `{true, false}`,
hand and size zero. -/
def ClockReplacer.init (numPages : Nat) : ClockReplacer :=
  ⟨List.replicate numPages ⟨true, false⟩, 0, 0⟩

/-- `ClockReplacer::Pin(frame_id)`. The argument is an `int32`; a negative
value or one at least `frames_.size()` is out of range after the
`static_cast<size_t>` and is ignored. -/
def ClockReplacer.pin (r : ClockReplacer) (frameId : Int) : ClockReplacer :=
  if frameId < 0 then r
  else
    match r.frames[frameId.toNat]? with
    | none => r
    | some m =>
      if m.pin then r
      else { r with frames := r.frames.set frameId.toNat ⟨true, m.ref⟩,
                    clockSize := r.clockSize - 1 }

/-- `ClockReplacer::Unpin(frame_id)`; out-of-range ids are ignored. -/
def ClockReplacer.unpin (r : ClockReplacer) (frameId : Int) : ClockReplacer :=
  if frameId < 0 then r
  else
    match r.frames[frameId.toNat]? with
    | none => r
    | some m =>
      { r with frames := r.frames.set frameId.toNat ⟨false, true⟩,
               clockSize := if m.pin then r.clockSize + 1 else r.clockSize }

/-- The `while (clock_size_ > 0)` loop of `ClockReplacer::Victim`, with fuel.
`none` means the loop has not returned within `fuel` iterations; a
terminated call yields the chosen frame (or `none` for `return false`)
together with the updated replacer. -/
def ClockReplacer.victimLoop : Nat → ClockReplacer → Option (Option Nat × ClockReplacer)
  | 0, _ => none
  | fuel + 1, r =>
    if r.clockSize = 0 then some (none, r)
    else
      let hand := r.clockHand % r.frames.length
      match r.frames[hand]? with
      | none => some (none, r)
      | some m =>
        if m.pin then
          ClockReplacer.victimLoop fuel { r with clockHand := hand + 1 }
        else if m.ref then
          ClockReplacer.victimLoop fuel
            { r with frames := r.frames.set hand ⟨m.pin, false⟩, clockHand := hand + 1 }
        else
          some (some hand,
            { r with frames := r.frames.set hand ⟨true, m.ref⟩,
                     clockSize := r.clockSize - 1, clockHand := hand + 1 })

/-- `ClockReplacer::Victim(&frame_id)`: run the loop with enough fuel for
two full sweeps (which always suffices on states whose counter matches the
unpinned-frame count); if the loop were to run longer the state is returned
unchanged with no victim. -/
def ClockReplacer.victim (r : ClockReplacer) : Option Nat × ClockReplacer :=
  (ClockReplacer.victimLoop (2 * r.frames.length + 1) r).getD (none, r)

/-- Number of frame entries whose pinned bit is false. -/
def ClockReplacer.unpinnedCount (r : ClockReplacer) : Nat :=
  (r.frames.filter (fun m => !m.pin)).length

/-- One replacer call, for stating invariants over call sequences. -/
inductive ROp where
  | pin (i : Int)
  | unpin (i : Int)
  | victim
deriving DecidableEq

/-- Apply one replacer call to a replacer state. -/
def applyROp (r : ClockReplacer) : ROp → ClockReplacer
  | .pin i => r.pin i
  | .unpin i => r.unpin i
  | .victim => (r.victim).2

/-- Run a sequence of replacer calls from the initial all-pinned state. -/
def runROps (numPages : Nat) (ops : List ROp) : ClockReplacer :=
  ops.foldl applyROp (ClockReplacer.init numPages)

/-! ## BufferPoolManager (`buffer_pool_manager.cpp`)

Page ids are `Int` with `INVALID_PAGE_ID = -1`; frame indices are `Nat`.
The page image is abstracted to a single `Nat` token (its concrete bytes
play no role in the claims); `Page::ResetMemory()` zeroes it. -/

/-- One frame's `Page` object: `page_id_`, `is_dirty_`, `pin_count_`, `data_`. -/
structure PoolPage where
  pageId : Int
  dirty : Bool
  pinCount : Nat
  data : Nat
deriving DecidableEq

/-- A freshly constructed frame. -/
def PoolPage.empty : PoolPage := ⟨-1, false, 0, 0⟩

/-- The disk manager's observable state: stored page images, the page-id
allocation counter, and the log of `DeallocatePage` calls. -/
structure Disk where
  store : List (Int × Nat)
  nextPid : Int
  deallocated : List Int
deriving DecidableEq

/-- `DiskManager::ReadPage`: unwritten pages read as zero. -/
def Disk.read (d : Disk) (p : Int) : Nat := (alookup d.store p).getD 0

/-- `DiskManager::WritePage`. -/
def Disk.write (d : Disk) (p : Int) (v : Nat) : Disk :=
  { d with store := ainsert d.store p v }

/-- `DiskManager::AllocatePage`: returns `next_page_id_++`. -/
def Disk.alloc (d : Disk) : Int × Disk :=
  (d.nextPid, { d with nextPid := d.nextPid + 1 })

/-- `DiskManager::DeallocatePage`: recorded in the call log. -/
def Disk.dealloc (d : Disk) (p : Int) : Disk :=
  { d with deallocated := d.deallocated ++ [p] }

/-- `BufferPoolManager` state: `pages_`, `page_table_`, `free_list_`,
`replacer_`, and the disk manager. -/
structure BPM where
  pages : List PoolPage
  pageTable : List (Int × Nat)
  freeList : List Nat
  repl : ClockReplacer
  disk : Disk
deriving DecidableEq

/-- Constructor: every frame empty and on the free list. -/
def BPM.init (poolSize : Nat) : BPM :=
  { pages := List.replicate poolSize PoolPage.empty
    pageTable := []
    freeList := (List.range poolSize)
    repl := ClockReplacer.init poolSize
    disk := ⟨[], 0, []⟩ }

/-- The page object of frame `fid`. -/
def BPM.pageAt (s : BPM) (fid : Nat) : PoolPage := s.pages.getD fid PoolPage.empty

/-- Steps 1.2-2 shared by `FetchPageImpl` and `NewPageImpl`: pick a frame
from the free list (calling `replacer_->Unpin(frame_id)` before popping) or
from `replacer_->Victim`, writing a dirty victim back and resetting its
image, dirty bit and pin count. The victim's old page-table entry is NOT
erased (faithful to the source, which installs the new mapping without
removing the old one). -/
def BPM.obtainFrame (s : BPM) : Option Nat × BPM :=
  match s.freeList with
  | fid :: rest =>
    (some fid, { s with repl := s.repl.unpin (Int.ofNat fid), freeList := rest })
  | [] =>
    match s.repl.victim with
    | (some fid, r) =>
      let pg := s.pageAt fid
      let disk := if pg.dirty then s.disk.write pg.pageId pg.data else s.disk
      (some fid,
        { s with repl := r, disk := disk,
                 pages := s.pages.set fid { pg with data := 0, dirty := false, pinCount := 0 } })
    | (none, r) => (none, { s with repl := r })

/-- `BufferPoolManager::FetchPageImpl(page_id)`. Returns the frame index of
the returned page (or `none` for `nullptr`) with the successor state. On
the miss path the source calls `replacer_->Pin(page_id)` — the page id,
not the frame id — which the embedding reproduces. -/
def BPM.fetchPage (s : BPM) (pid : Int) : Option Nat × BPM :=
  match alookup s.pageTable pid with
  | some fid =>
    let pg := s.pageAt fid
    (some fid,
      { s with pages := s.pages.set fid { pg with pinCount := pg.pinCount + 1 },
               repl := s.repl.pin (Int.ofNat fid) })
  | none =>
    match s.obtainFrame with
    | (none, s1) => (none, s1)
    | (some fid, s1) =>
      let pg := s1.pageAt fid
      let pg1 := { pg with pageId := pid, data := s1.disk.read pid,
                           pinCount := pg.pinCount + 1 }
      (some fid,
        { s1 with pages := s1.pages.set fid pg1,
                  repl := s1.repl.pin pid,
                  pageTable := ainsert s1.pageTable pid fid })

/-- `BufferPoolManager::UnpinPageImpl(page_id, is_dirty)`. The dirty flag
is ORed in only inside the `pin_count > 0` branch, as in the source. -/
def BPM.unpinPage (s : BPM) (pid : Int) (isDirty : Bool) : Bool × BPM :=
  match alookup s.pageTable pid with
  | none => (false, s)
  | some fid =>
    let pg := s.pageAt fid
    if 0 < pg.pinCount then
      let pg1 := { pg with dirty := pg.dirty || isDirty, pinCount := pg.pinCount - 1 }
      (true,
        { s with pages := s.pages.set fid pg1,
                 repl := if pg1.pinCount = 0 then s.repl.unpin (Int.ofNat fid) else s.repl })
    else (true, s)

/-- `BufferPoolManager::NewPageImpl(&page_id)`. Returns the allocated page
id and the frame index (or `none` for `nullptr`). As in the source, the
pin call passes `*page_id` to `replacer_->Pin`. -/
def BPM.newPage (s : BPM) : Option (Int × Nat) × BPM :=
  match s.obtainFrame with
  | (none, s1) => (none, s1)
  | (some fid, s1) =>
    let (pid, disk) := s1.disk.alloc
    let pg := s1.pageAt fid
    let pg1 := { pg with pageId := pid, pinCount := pg.pinCount + 1 }
    (some (pid, fid),
      { s1 with disk := disk,
                pages := s1.pages.set fid pg1,
                pageTable := ainsert s1.pageTable pid fid,
                repl := s1.repl.pin pid })

/-- `BufferPoolManager::DeletePageImpl(page_id)`. On the resident unpinned
path the frame is reset and the mapping erased, but the frame is NOT pushed
onto the free list; on the non-resident path the source returns `true`
without calling `DeallocatePage` (both faithful to the source). -/
def BPM.deletePage (s : BPM) (pid : Int) : Bool × BPM :=
  match alookup s.pageTable pid with
  | some fid =>
    let pg := s.pageAt fid
    if 0 < pg.pinCount then (false, s)
    else
      (true,
        { s with pageTable := aerase s.pageTable pid,
                 disk := s.disk.dealloc pid,
                 pages := s.pages.set fid { pg with data := 0, dirty := false,
                                                    pinCount := 0, pageId := -1 } })
  | none => (true, s)

/-- `BufferPoolManager::FlushPageImpl(page_id)`. -/
def BPM.flushPage (s : BPM) (pid : Int) : Bool × BPM :=
  match alookup s.pageTable pid with
  | some fid =>
    let pg := s.pageAt fid
    if pg.dirty then
      (true, { s with disk := s.disk.write pid pg.data,
                      pages := s.pages.set fid { pg with dirty := false } })
    else (true, s)
  | none => (false, s)

/-! ## LinearProbeHashTable (`linear_probe_hash_table.cpp`)

The table is modelled one layer above the buffer pool: the header's block
list plus the block pages' slots are the table state, with the blocks laid
out flat (the slot of block `block_ind` at `offset` is the list entry
`block_ind * BLOCK_ARRAY_SIZE + offset`). Keys and values are `Nat`; the
hash function and `BLOCK_ARRAY_SIZE` (written `N`) are parameters. -/

/-- One block-page slot: the `occupied` and `readable` bits plus the stored
key and value. -/
structure Slot where
  occupied : Bool
  readable : Bool
  key : Nat
  val : Nat
deriving DecidableEq

/-- A never-written slot. -/
def Slot.empty : Slot := ⟨false, false, 0, 0⟩

/-- Table state: the header's block count `NumBlocks()` and the blocks'
slots, flattened in block order. -/
structure HashTable where
  nb : Nat
  slots : List Slot
deriving DecidableEq

/-- A freshly built table of `nb` empty blocks (constructor / the new table
built inside `Resize`). -/
def HashTable.empty (N nb : Nat) : HashTable :=
  ⟨nb, List.replicate (nb * N) Slot.empty⟩

/-- The slot of block `blockInd` at `offset` (`bucket->…At(offset)`). -/
def HashTable.slotAt (t : HashTable) (N blockInd offset : Nat) : Slot :=
  t.slots.getD (blockInd * N + offset) Slot.empty

/-- Outcome of `InternalInsert`: success with the new table, duplicate
found (`return false` with `*full` untouched), or wrapped a full circle
(`return false` with `*full = true`). -/
inductive InsRes where
  | ok (t : HashTable)
  | dup
  | full
deriving DecidableEq

/-- The probe loop of `LinearProbeHashTable::InternalInsert`, with fuel.
`HashTableBlockPage::Insert` is not among the sources; modelled from the
spec: it claims the slot (setting `occupied` and `readable` and writing
the key and value) iff the slot is currently not `readable`. When it
fails, the slot is readable and the loop compares its key and value for
the duplicate abort, then advances: `offset++`, the one-circle test
`block_ind * BLOCK_ARRAY_SIZE + offset == hash_val`, then the block
boundary `block_ind = (block_ind + 1) % NumBlocks()`. -/
def insertLoop (N k v hashVal : Nat) :
    Nat → HashTable → Nat → Nat → Option InsRes
  | 0, _, _, _ => none
  | fuel + 1, t, blockInd, offset =>
    let s := t.slotAt N blockInd offset
    if !s.readable then
      some (.ok { t with slots := t.slots.set (blockInd * N + offset) ⟨true, true, k, v⟩ })
    else if s.key = k ∧ s.val = v then some .dup
    else
      let offset1 := offset + 1
      if blockInd * N + offset1 = hashVal then some .full
      else if N ≤ offset1 then insertLoop N k v hashVal fuel t ((blockInd + 1) % t.nb) 0
      else insertLoop N k v hashVal fuel t blockInd offset1

/-- `LinearProbeHashTable::InternalInsert(key, value, full)`:
`hash_val = hash(key) % (NumBlocks() * BLOCK_ARRAY_SIZE)`, start at
`(hash_val / BLOCK_ARRAY_SIZE, hash_val % BLOCK_ARRAY_SIZE)`. One full
circle of the flat probe takes `NumBlocks() * BLOCK_ARRAY_SIZE` loop
iterations, so the fuel covers it with one to spare; `none` means the loop
overran a full circle without terminating. -/
def internalInsert (N : Nat) (hashFn : Nat → Nat) (t : HashTable) (k v : Nat) :
    Option InsRes :=
  let hashVal := hashFn k % (t.nb * N)
  insertLoop N k v hashVal (t.nb * N + 1) t (hashVal / N) (hashVal % N)

/-- The probe loop of `LinearProbeHashTable::GetValue`: stop on a
non-`occupied` slot, collect values of `readable` slots with matching key,
same circle test and block-boundary advance as the insert loop. -/
def getLoop (N k hashVal : Nat) (t : HashTable) :
    Nat → Nat → Nat → List Nat → Option (List Nat)
  | 0, _, _, _ => none
  | fuel + 1, blockInd, offset, acc =>
    let s := t.slotAt N blockInd offset
    if !s.occupied then some acc
    else
      let acc1 := if s.readable ∧ s.key = k then acc ++ [s.val] else acc
      let offset1 := offset + 1
      if blockInd * N + offset1 = hashVal then some acc1
      else if N ≤ offset1 then getLoop N k hashVal t fuel ((blockInd + 1) % t.nb) 0 acc1
      else getLoop N k hashVal t fuel blockInd offset1 acc1

/-- `LinearProbeHashTable::GetValue(key, result)`: the collected values and
the `!result->empty()` return value. -/
def getValue (N : Nat) (hashFn : Nat → Nat) (t : HashTable) (k : Nat) :
    Option (List Nat × Bool) :=
  let hashVal := hashFn k % (t.nb * N)
  (getLoop N k hashVal t (t.nb * N + 1) (hashVal / N) (hashVal % N) []).map
    (fun l => (l, !l.isEmpty))

/-- The probe loop of `LinearProbeHashTable::Remove`: stop with `false` on
a non-`occupied` slot; on a key-and-value match return `false` if the slot
is a tombstone, else clear the `readable` bit (`bucket->Remove(offset)`,
modelled from the spec: `occupied` stays set) and return `true`; same
circle test and block-boundary advance. -/
def removeLoop (N k v hashVal : Nat) :
    Nat → HashTable → Nat → Nat → Option (HashTable × Bool)
  | 0, _, _, _ => none
  | fuel + 1, t, blockInd, offset =>
    let s := t.slotAt N blockInd offset
    if !s.occupied then some (t, false)
    else if s.key = k ∧ s.val = v then
      if !s.readable then some (t, false)
      else some ({ t with slots := t.slots.set (blockInd * N + offset) { s with readable := false } }, true)
    else
      let offset1 := offset + 1
      if blockInd * N + offset1 = hashVal then some (t, false)
      else if N ≤ offset1 then removeLoop N k v hashVal fuel t ((blockInd + 1) % t.nb) 0
      else removeLoop N k v hashVal fuel t blockInd offset1

/-- `LinearProbeHashTable::Remove(key, value)`. -/
def removeKV (N : Nat) (hashFn : Nat → Nat) (t : HashTable) (k v : Nat) :
    Option (HashTable × Bool) :=
  let hashVal := hashFn k % (t.nb * N)
  removeLoop N k v hashVal (t.nb * N + 1) t (hashVal / N) (hashVal % N)

/-- The new block count computed by `Resize(initial_size)`:
`2 * initial_size / BLOCK_ARRAY_SIZE`, rounded up. -/
def newBlockCount (N initialSize : Nat) : Nat :=
  2 * initialSize / N + (if 2 * initialSize % N > 0 then 1 else 0)

/-- The copy phase of `Resize`: for each old slot in block order, if it is
`readable`, re-insert its pair into the new table with
`InternalInsert(key, value)` — whose result the source discards, so a
`dup` or `full` outcome leaves the new table unchanged. `none` propagates
a non-terminating insert. -/
def reinsertSlots (N : Nat) (hashFn : Nat → Nat) :
    List Slot → HashTable → Option HashTable
  | [], t => some t
  | s :: rest, t =>
    if s.readable then
      match internalInsert N hashFn t s.key s.val with
      | none => none
      | some (.ok t1) => reinsertSlots N hashFn rest t1
      | some .dup => reinsertSlots N hashFn rest t
      | some .full => reinsertSlots N hashFn rest t
    else reinsertSlots N hashFn rest t

/-- `LinearProbeHashTable::Resize(initial_size)`: build the new table of
`newBlockCount` empty blocks and move every readable old entry into it. -/
def resize (N : Nat) (hashFn : Nat → Nat) (t : HashTable) (initialSize : Nat) :
    Option HashTable :=
  reinsertSlots N hashFn t.slots (HashTable.empty N (newBlockCount N initialSize))

/-- The retry loop of the public `LinearProbeHashTable::Insert`: on a
`full` signal, `Resize(GetSize())` and retry, where
`GetSize() = NumBlocks() * BLOCK_ARRAY_SIZE`; `rounds` bounds the number
of attempts. -/
def insertPub (N : Nat) (hashFn : Nat → Nat) :
    Nat → HashTable → Nat → Nat → Option (HashTable × Bool)
  | 0, _, _, _ => none
  | rounds + 1, t, k, v =>
    match internalInsert N hashFn t k v with
    | none => none
    | some (.ok t1) => some (t1, true)
    | some .dup => some (t, false)
    | some .full =>
      match resize N hashFn t (t.nb * N) with
      | none => none
      | some t1 => insertPub N hashFn rounds t1 k v

/-- The (key, value) pairs of the readable slots, in slot order. -/
def readablePairs : List Slot → List (Nat × Nat)
  | [] => []
  | s :: rest =>
    if s.readable then (s.key, s.val) :: readablePairs rest else readablePairs rest

/-- Number of readable slots. -/
def readableCount : List Slot → Nat
  | [] => 0
  | s :: rest => (if s.readable then 1 else 0) + readableCount rest

/-- Boolean mutual-containment test of two pair lists (equality of the
underlying sets). -/
def eqAsSets (l1 l2 : List (Nat × Nat)) : Bool :=
  l1.all (fun p => l2.contains p) && l2.all (fun p => l1.contains p)

/-- `Resize(GetSize())` followed by the set comparison of the readable
pairs before and after; `none` if the resize-internal insert diverged. -/
def resizePreservesSet (N : Nat) (hashFn : Nat → Nat) (t : HashTable) : Option Bool :=
  (resize N hashFn t (t.nb * N)).map
    (fun t1 => eqAsSets (readablePairs t1.slots) (readablePairs t.slots))

/-! ## Concrete traces used to exhibit reachable states -/

/-- Pool of two frames after `FetchPage(1)` and `FetchPage(2)` (both still
pinned by their callers). -/
def poolTwoFetched : BPM := (((BPM.init 2).fetchPage 1).2.fetchPage 2).2

/-- Pool of one frame after `NewPage` (which returned page id 0 in frame 0,
pinned). -/
def poolOneNew : BPM := ((BPM.init 1).newPage).2

/-- `poolOneNew` after `UnpinPage(0, false)`: page 0 resident in frame 0
with pin count 0. -/
def poolOneUnpinned : BPM := (poolOneNew.unpinPage 0 false).2

/-- Identity hash function, used in the concrete hash-table traces. -/
def idHash : Nat → Nat := fun k => k

/-- Fresh hash table with one block of four slots. -/
def tEmpty4 : HashTable := HashTable.empty 4 1

/-- `tEmpty4` after `Insert(0, 7)` (lands in slot 0). -/
def tA : HashTable := ⟨1, [⟨true, true, 0, 7⟩, Slot.empty, Slot.empty, Slot.empty]⟩

/-- `tA` after `Insert(0, 9)` (probes past slot 0, lands in slot 1). -/
def tB : HashTable := ⟨1, [⟨true, true, 0, 7⟩, ⟨true, true, 0, 9⟩, Slot.empty, Slot.empty]⟩

/-- `tB` after `Remove(0, 7)`: slot 0 is a tombstone, the pair (0, 9) is
readable in slot 1. -/
def tDup : HashTable := ⟨1, [⟨true, false, 0, 7⟩, ⟨true, true, 0, 9⟩, Slot.empty, Slot.empty]⟩

/-- One block of two slots, both readable, holding (2, 2) and (1, 1):
reached from the empty table by `Insert(1, 1)` then `Insert(2, 2)`. -/
def tFull2 : HashTable := ⟨1, [⟨true, true, 2, 2⟩, ⟨true, true, 1, 1⟩]⟩

/-! ## Claim theorems: buffer pool -/

/-- C1: the claim says a frame with pin_count > 0 is never returned by
`ClockReplacer::Victim` nor reused by `FetchPage`. In the reachable pool
`poolTwoFetched` (two frames, pages 1 and 2 fetched and still pinned),
frame 0 holds page 1 with pin count 1, yet `Victim` selects frame 0 and
`FetchPage(3)` reuses it for page 3 — because the miss path of
`FetchPageImpl` called `replacer_->Pin(page_id)` instead of
`Pin(frame_id)`, leaving frame 0 unpinned inside the replacer. -/
theorem C1_fetch_reuses_pinned_frame :
    (poolTwoFetched.pageAt 0).pinCount = 1 ∧
    (poolTwoFetched.pageAt 0).pageId = 1 ∧
    poolTwoFetched.repl.victim.1 = some 0 ∧
    (poolTwoFetched.fetchPage 3).1 = some 0 ∧
    ((poolTwoFetched.fetchPage 3).2.pageAt 0).pageId = 3 := by decide

/-- C2: the claim says the victim's old page-table mapping is removed
before the new one is installed, keeping the table injective. In the
reachable pool `poolOneUnpinned`, a second `NewPage` evicts frame 0
(holding page 0) and installs page 1 without erasing the old entry: the
page table ends with both 0 ↦ frame 0 and 1 ↦ frame 0, while the frame's
page id is 1. -/
theorem C2_page_table_loses_injectivity :
    (poolOneUnpinned.newPage).1 = some (1, 0) ∧
    alookup (poolOneUnpinned.newPage).2.pageTable 0 = some 0 ∧
    alookup (poolOneUnpinned.newPage).2.pageTable 1 = some 0 ∧
    ((poolOneUnpinned.newPage).2.pageAt 0).pageId = 1 := by decide

/-- C3: the claim says `Replacer::Pin` receives the frame id on every
successful path. On the free-list path of `FetchPageImpl`, fetching page 5
into frame 0 of a fresh two-frame pool leaves the replacer's entry for
frame 0 unpinned (the source passed the page id 5, which is out of range
and ignored), although the pool's pin count for frame 0 is 1. -/
theorem C3_replacer_pin_gets_page_id :
    ((BPM.init 2).fetchPage 5).1 = some 0 ∧
    (((BPM.init 2).fetchPage 5).2.pageAt 0).pinCount = 1 ∧
    (((BPM.init 2).fetchPage 5).2.repl.frames.getD 0 ⟨true, true⟩).pin = false := by decide

/-- C7 counterexample: the claim says `DeletePage` on a non-resident page
id calls `DeallocatePage` and returns true. On a fresh one-frame pool,
`DeletePage(7)` returns true but the state — including the disk manager's
`DeallocatePage` call log — is completely unchanged. -/
theorem C7_counterexample :
    (BPM.init 1).deletePage 7 = (true, BPM.init 1) ∧
    ((BPM.init 1).deletePage 7).2.disk.deallocated = [] := by decide

/-- C7 amended: for every pool state and every page id absent from the
page table, `DeletePage` returns true and leaves the state (hence the
disk's deallocation log) unchanged — `DeallocatePage` is not called. -/
theorem C7_delete_nonresident_no_dealloc (s : BPM) (pid : Int)
    (h : alookup s.pageTable pid = none) :
    s.deletePage pid = (true, s) := by
  unfold BPM.deletePage
  rw [h]

/-- C7 witness: the amended theorem applied to a fresh one-frame pool and
the non-resident page id 7. -/
theorem C7_delete_nonresident_no_dealloc_witness :
    (BPM.init 1).deletePage 7 = (true, BPM.init 1) :=
  C7_delete_nonresident_no_dealloc (BPM.init 1) 7 (by decide)

/-- C8: the claim (and the source's own step comment "return it to the
free list") says deleting a resident unpinned page returns the frame to
the free list. In `poolOneUnpinned`, `DeletePage(0)` returns true, erases
the mapping, logs the disk deallocation and resets the frame — but the
free list stays empty, so the frame is leaked. -/
theorem C8_delete_leaks_frame :
    (poolOneUnpinned.deletePage 0).1 = true ∧
    (poolOneUnpinned.deletePage 0).2.pageTable = [] ∧
    (poolOneUnpinned.deletePage 0).2.disk.deallocated = [0] ∧
    (poolOneUnpinned.deletePage 0).2.pageAt 0 = PoolPage.empty ∧
    (poolOneUnpinned.deletePage 0).2.freeList = [] := by decide

/-- C9 counterexample: the claim says `UnpinPage(p, is_dirty)` ORs
`is_dirty` into the dirty flag of every resident page. In
`poolOneUnpinned` page 0 is resident with pin count 0;
`UnpinPage(0, true)` returns true but leaves the state — in particular
the dirty flag — unchanged, because the source ORs the flag only inside
the `pin_count > 0` branch. -/
theorem C9_counterexample :
    alookup poolOneUnpinned.pageTable 0 = some 0 ∧
    (poolOneUnpinned.pageAt 0).pinCount = 0 ∧
    poolOneUnpinned.unpinPage 0 true = (true, poolOneUnpinned) ∧
    ((poolOneUnpinned.unpinPage 0 true).2.pageAt 0).dirty = false := by decide

/-- C9 amended: for a page id that is not resident, `UnpinPage` returns
false and leaves the state unchanged; for every resident page id it
returns true, and when the frame's pin count is positive it ORs
`is_dirty` into the dirty flag, decrements the pin count and calls
`Replacer::Unpin` exactly when the count reaches 0; when the pin count is
already 0 the state is unchanged (the dirty flag is not updated). -/
theorem C9_unpin_amended (s : BPM) (pid : Int) (b : Bool) :
    (alookup s.pageTable pid = none → s.unpinPage pid b = (false, s)) ∧
    (∀ fid, alookup s.pageTable pid = some fid →
      (s.unpinPage pid b).1 = true ∧
      (0 < (s.pageAt fid).pinCount →
        (s.unpinPage pid b).2 =
          { s with
              pages := s.pages.set fid
                { s.pageAt fid with
                    dirty := (s.pageAt fid).dirty || b,
                    pinCount := (s.pageAt fid).pinCount - 1 },
              repl := if (s.pageAt fid).pinCount - 1 = 0
                      then s.repl.unpin (Int.ofNat fid) else s.repl }) ∧
      ((s.pageAt fid).pinCount = 0 → (s.unpinPage pid b).2 = s)) := by
  constructor
  · intro h
    unfold BPM.unpinPage
    rw [h]
  · intro fid h
    unfold BPM.unpinPage
    rw [h]
    by_cases hp : 0 < (s.pageAt fid).pinCount
    · simp [hp, Nat.pos_iff_ne_zero.mp hp]
    · simp [hp]

/-- C9 witness: the amended theorem applied on both branches — the
non-resident page id 7 of `poolOneUnpinned` (returns false, state
unchanged) and page 0 of `poolOneNew`, resident in frame 0 with pin
count 1 (returns true). -/
theorem C9_unpin_amended_witness :
    poolOneUnpinned.unpinPage 7 true = (false, poolOneUnpinned) ∧
    (poolOneNew.unpinPage 0 true).1 = true :=
  ⟨(C9_unpin_amended poolOneUnpinned 7 true).1 (by decide),
    ((C9_unpin_amended poolOneNew 0 true).2 0 (by decide)).1⟩

/-! ## Clock replacer invariant (claim C10) -/

/-- Count of unpinned entries of a frame list. -/
def cntU (l : List FrameMeta) : Nat := (l.filter (fun m => !m.pin)).length

/-- The replacer invariant: `clock_size_` counts the unpinned entries. -/
def RInv (r : ClockReplacer) : Prop := r.clockSize = cntU r.frames

theorem unpinnedCount_eq_cntU (r : ClockReplacer) : r.unpinnedCount = cntU r.frames := rfl

theorem cntU_cons (a : FrameMeta) (l : List FrameMeta) :
    cntU (a :: l) = (if a.pin then 0 else 1) + cntU l := by
  by_cases h : a.pin <;> simp [cntU, List.filter, h] <;> omega

theorem cntU_replicate (n : Nat) : cntU (List.replicate n ⟨true, false⟩) = 0 := by
  induction n with
  | zero => rfl
  | succ k ih => simp [List.replicate, cntU_cons, ih]

theorem cntU_set (l : List FrameMeta) :
    ∀ (i : Nat) (m m' : FrameMeta), l[i]? = some m →
      cntU (l.set i m') + (if m.pin then 0 else 1)
        = cntU l + (if m'.pin then 0 else 1) := by
  induction l with
  | nil => intro i m m' h; simp at h
  | cons a rest ih =>
    intro i m m' h
    cases i with
    | zero =>
      simp only [List.getElem?_cons_zero, Option.some.injEq] at h
      subst h
      simp [List.set, cntU_cons]
      omega
    | succ j =>
      simp only [List.getElem?_cons_succ] at h
      simp only [List.set, cntU_cons]
      have := ih j m m' h
      omega

/-- One unfolding of the `Victim` loop at nonzero fuel. -/
theorem victimLoop_succ (f : Nat) (r : ClockReplacer) :
    ClockReplacer.victimLoop (f + 1) r =
      if r.clockSize = 0 then some (none, r)
      else
        match r.frames[r.clockHand % r.frames.length]? with
        | none => some (none, r)
        | some m =>
          if m.pin then
            ClockReplacer.victimLoop f
              { r with clockHand := r.clockHand % r.frames.length + 1 }
          else if m.ref then
            ClockReplacer.victimLoop f
              { r with frames := r.frames.set (r.clockHand % r.frames.length) ⟨m.pin, false⟩,
                       clockHand := r.clockHand % r.frames.length + 1 }
          else
            some (some (r.clockHand % r.frames.length),
              { r with frames := r.frames.set (r.clockHand % r.frames.length) ⟨true, m.ref⟩,
                       clockSize := r.clockSize - 1,
                       clockHand := r.clockHand % r.frames.length + 1 }) := rfl

theorem RInv_init (n : Nat) : RInv (ClockReplacer.init n) := by
  simp [RInv, ClockReplacer.init, cntU_replicate]

theorem RInv_pin (r : ClockReplacer) (i : Int) (h : RInv r) : RInv (r.pin i) := by
  unfold ClockReplacer.pin
  split
  · exact h
  · cases hm : r.frames[i.toNat]? with
    | none => exact h
    | some m =>
      cases hp : m.pin with
      | true => simp [hp]; exact h
      | false =>
        have hc := cntU_set r.frames i.toNat m ⟨true, m.ref⟩ hm
        simp only [hp] at hc
        simp only [RInv] at h ⊢
        simp only [hp, Bool.false_eq_true, if_false, if_true] at hc ⊢
        simp at hc ⊢
        omega

theorem RInv_unpin (r : ClockReplacer) (i : Int) (h : RInv r) : RInv (r.unpin i) := by
  unfold ClockReplacer.unpin
  split
  · exact h
  · cases hm : r.frames[i.toNat]? with
    | none => exact h
    | some m =>
      have hc := cntU_set r.frames i.toNat m ⟨false, true⟩ hm
      simp only [RInv] at h ⊢
      cases hp : m.pin <;> simp only [hp] at hc ⊢ <;> simp at hc ⊢ <;> omega

theorem RInv_victimLoop :
    ∀ (fuel : Nat) (r : ClockReplacer) (res : Option Nat) (r' : ClockReplacer),
      ClockReplacer.victimLoop fuel r = some (res, r') → RInv r → RInv r' := by
  intro fuel
  induction fuel with
  | zero => intro r res r' h; simp [ClockReplacer.victimLoop] at h
  | succ f ih =>
    intro r res r' h hinv
    rw [victimLoop_succ] at h
    by_cases hz : r.clockSize = 0
    · rw [if_pos hz] at h
      injection h with h
      injection h with _ h
      exact h ▸ hinv
    · rw [if_neg hz] at h
      cases hm : r.frames[r.clockHand % r.frames.length]? with
      | none =>
        simp only [hm] at h
        injection h with h
        injection h with _ h
        exact h ▸ hinv
      | some m =>
        simp only [hm] at h
        cases hp : m.pin with
        | true =>
          rw [if_pos hp] at h
          exact ih _ _ _ h hinv
        | false =>
          cases hr : m.ref with
          | true =>
            rw [if_neg (by simp [hp]), if_pos hr] at h
            refine ih _ _ _ h ?_
            have hc := cntU_set r.frames (r.clockHand % r.frames.length) m ⟨m.pin, false⟩ hm
            simp only [RInv] at hinv ⊢
            simp only [hp] at hc ⊢
            simp at hc ⊢
            omega
          | false =>
            rw [if_neg (by simp [hp]), if_neg (by simp [hr])] at h
            injection h with h
            injection h with _ h
            have hc := cntU_set r.frames (r.clockHand % r.frames.length) m ⟨true, m.ref⟩ hm
            simp only [hp] at hc
            simp at hc
            simp only [RInv] at hinv
            rw [← h]
            show r.clockSize - 1 = cntU (r.frames.set (r.clockHand % r.frames.length) ⟨true, m.ref⟩)
            omega

theorem RInv_victim (r : ClockReplacer) (h : RInv r) : RInv (r.victim).2 := by
  unfold ClockReplacer.victim
  cases hl : ClockReplacer.victimLoop (2 * r.frames.length + 1) r with
  | none => exact h
  | some p =>
    simp only [Option.getD_some]
    exact RInv_victimLoop _ _ p.1 p.2 (by rw [hl]) h

theorem RInv_run (n : Nat) (ops : List ROp) : RInv (runROps n ops) := by
  unfold runROps
  have main : ∀ (l : List ROp) (r : ClockReplacer), RInv r → RInv (l.foldl applyROp r) := by
    intro l
    induction l with
    | nil => intro r h; exact h
    | cons op rest ih =>
      intro r h
      cases op with
      | pin i => exact ih _ (RInv_pin r i h)
      | unpin i => exact ih _ (RInv_unpin r i h)
      | victim => exact ih _ (RInv_victim r h)
  exact main ops _ (RInv_init n)

theorem victimLoop_hits :
    ∀ (k : Nat) (r : ClockReplacer) (fuel : Nat),
      r.clockSize ≠ 0 →
      r.frames[(r.clockHand + k) % r.frames.length]? = some ⟨false, false⟩ →
      k + 1 ≤ fuel →
      ∃ fid r', ClockReplacer.victimLoop fuel r = some (some fid, r') := by
  intro k
  induction k with
  | zero =>
    intro r fuel hz htgt hfuel
    obtain ⟨f, rfl⟩ : ∃ f, fuel = f + 1 := ⟨fuel - 1, by omega⟩
    rw [victimLoop_succ, if_neg hz]
    rw [Nat.add_zero] at htgt
    rw [htgt]
    exact ⟨_, _, rfl⟩
  | succ k ih =>
    intro r fuel hz htgt hfuel
    obtain ⟨f, rfl⟩ : ∃ f, fuel = f + 1 := ⟨fuel - 1, by omega⟩
    have hlen : 0 < r.frames.length := by
      by_contra hcon
      have hnil : r.frames = [] := List.length_eq_zero.mp (by omega)
      rw [hnil] at htgt
      simp at htgt
    have hhand : r.clockHand % r.frames.length < r.frames.length := Nat.mod_lt _ hlen
    obtain ⟨m, hm⟩ : ∃ m, r.frames[r.clockHand % r.frames.length]? = some m :=
      ⟨_, List.getElem?_eq_getElem hhand⟩
    rw [victimLoop_succ, if_neg hz]
    simp only [hm]
    have hshift : (r.clockHand % r.frames.length + 1 + k) % r.frames.length
        = (r.clockHand + (k + 1)) % r.frames.length := by
      conv_rhs => rw [← Nat.mod_add_mod]
      congr 1
      omega
    by_cases hp : m.pin = true
    · rw [if_pos hp]
      refine ih _ f (by exact hz) ?_ (by omega)
      show r.frames[(r.clockHand % r.frames.length + 1 + k) % r.frames.length]? = _
      rw [hshift]
      exact htgt
    · have hpf : m.pin = false := by
        cases hq : m.pin
        · rfl
        · exact absurd hq hp
      by_cases hr : m.ref = true
      · rw [if_neg hp, if_pos hr]
        refine ih _ f (by exact hz) ?_ (by omega)
        show (r.frames.set (r.clockHand % r.frames.length) ⟨m.pin, false⟩)[(r.clockHand % r.frames.length + 1 + k) % (r.frames.set (r.clockHand % r.frames.length) ⟨m.pin, false⟩).length]? = _
        rw [List.length_set, hshift]
        by_cases he : (r.clockHand + (k + 1)) % r.frames.length = r.clockHand % r.frames.length
        · rw [he, List.getElem?_set_eq_of_lt _ hhand]
          rw [hpf]
        · rw [List.getElem?_set_ne (by omega)]
          exact htgt
      · rw [if_neg hp, if_neg hr]
        exact ⟨_, _, rfl⟩

theorem victimLoop_terminates :
    ∀ (k : Nat) (r : ClockReplacer) (fuel : Nat),
      r.clockSize ≠ 0 →
      (∃ m, r.frames[(r.clockHand + k) % r.frames.length]? = some m ∧ m.pin = false) →
      k + 1 + r.frames.length ≤ fuel →
      ∃ fid r', ClockReplacer.victimLoop fuel r = some (some fid, r') := by
  intro k
  induction k with
  | zero =>
    intro r fuel hz htgt hfuel
    obtain ⟨m, hm, hmp⟩ := htgt
    rw [Nat.add_zero] at hm
    have hlen : 0 < r.frames.length := by
      by_contra hcon
      have hnil : r.frames = [] := List.length_eq_zero.mp (by omega)
      rw [hnil] at hm
      simp at hm
    have hhand : r.clockHand % r.frames.length < r.frames.length := Nat.mod_lt _ hlen
    obtain ⟨f, rfl⟩ : ∃ f, fuel = f + 1 := ⟨fuel - 1, by omega⟩
    rw [victimLoop_succ, if_neg hz]
    simp only [hm]
    have hp : ¬(m.pin = true) := by rw [hmp]; exact Bool.false_ne_true
    by_cases hr : m.ref = true
    · rw [if_neg hp, if_pos hr]
      refine victimLoop_hits (r.frames.length - 1) _ f (by exact hz) ?_ (by omega)
      show (r.frames.set (r.clockHand % r.frames.length) ⟨m.pin, false⟩)[(r.clockHand % r.frames.length + 1 + (r.frames.length - 1)) % (r.frames.set (r.clockHand % r.frames.length) ⟨m.pin, false⟩).length]? = _
      rw [List.length_set]
      have hidx : (r.clockHand % r.frames.length + 1 + (r.frames.length - 1)) % r.frames.length
          = r.clockHand % r.frames.length := by
        have harith : r.clockHand % r.frames.length + 1 + (r.frames.length - 1)
            = r.clockHand % r.frames.length + r.frames.length := by omega
        rw [harith, Nat.add_mod_right, Nat.mod_eq_of_lt hhand]
      rw [hidx, List.getElem?_set_eq_of_lt _ hhand, hmp]
    · rw [if_neg hp, if_neg hr]
      exact ⟨_, _, rfl⟩
  | succ k ih =>
    intro r fuel hz htgt hfuel
    obtain ⟨m, hm, hmp⟩ := htgt
    have hlen : 0 < r.frames.length := by
      by_contra hcon
      have hnil : r.frames = [] := List.length_eq_zero.mp (by omega)
      rw [hnil] at hm
      simp at hm
    have hhand : r.clockHand % r.frames.length < r.frames.length := Nat.mod_lt _ hlen
    obtain ⟨m0, hm0⟩ : ∃ m0, r.frames[r.clockHand % r.frames.length]? = some m0 :=
      ⟨_, List.getElem?_eq_getElem hhand⟩
    obtain ⟨f, rfl⟩ : ∃ f, fuel = f + 1 := ⟨fuel - 1, by omega⟩
    rw [victimLoop_succ, if_neg hz]
    simp only [hm0]
    have hshift : (r.clockHand % r.frames.length + 1 + k) % r.frames.length
        = (r.clockHand + (k + 1)) % r.frames.length := by
      conv_rhs => rw [← Nat.mod_add_mod]
      congr 1
      omega
    by_cases hp : m0.pin = true
    · rw [if_pos hp]
      refine ih _ f (by exact hz) ?_ (by show k + 1 + r.frames.length ≤ f; omega)
      refine ⟨m, ?_, hmp⟩
      show r.frames[(r.clockHand % r.frames.length + 1 + k) % r.frames.length]? = _
      rw [hshift]
      exact hm
    · have hpf : m0.pin = false := by
        cases hq : m0.pin
        · rfl
        · exact absurd hq hp
      by_cases hr : m0.ref = true
      · rw [if_neg hp, if_pos hr]
        by_cases he : (r.clockHand + (k + 1)) % r.frames.length = r.clockHand % r.frames.length
        · refine victimLoop_hits (r.frames.length - 1) _ f (by exact hz) ?_ (by omega)
          show (r.frames.set (r.clockHand % r.frames.length) ⟨m0.pin, false⟩)[(r.clockHand % r.frames.length + 1 + (r.frames.length - 1)) % (r.frames.set (r.clockHand % r.frames.length) ⟨m0.pin, false⟩).length]? = _
          rw [List.length_set]
          have hidx : (r.clockHand % r.frames.length + 1 + (r.frames.length - 1)) % r.frames.length
              = r.clockHand % r.frames.length := by
            have harith : r.clockHand % r.frames.length + 1 + (r.frames.length - 1)
                = r.clockHand % r.frames.length + r.frames.length := by omega
            rw [harith, Nat.add_mod_right, Nat.mod_eq_of_lt hhand]
          rw [hidx, List.getElem?_set_eq_of_lt _ hhand, hpf]
        · refine ih _ f (by exact hz) ?_ (by simp only [List.length_set]; omega)
          refine ⟨m, ?_, hmp⟩
          show (r.frames.set (r.clockHand % r.frames.length) ⟨m0.pin, false⟩)[(r.clockHand % r.frames.length + 1 + k) % (r.frames.set (r.clockHand % r.frames.length) ⟨m0.pin, false⟩).length]? = _
          rw [List.length_set, hshift, List.getElem?_set_ne (by omega)]
          exact hm
      · rw [if_neg hp, if_neg hr]
        exact ⟨_, _, rfl⟩


theorem victim_finds (r : ClockReplacer) (hinv : RInv r) (hz : r.clockSize ≠ 0) :
    ∃ fid r', r.victim = (some fid, r') := by
  have hcnt : cntU r.frames ≠ 0 := by rw [← hinv]; exact hz
  obtain ⟨m, hmem, hmp⟩ : ∃ m ∈ r.frames, m.pin = false := by
    by_contra hcon
    push_neg at hcon
    have hnil : r.frames.filter (fun m => !m.pin) = [] := by
      apply List.filter_eq_nil_iff.mpr
      intro a ha
      simp only [Bool.not_eq_true']
      exact hcon a ha
    exact hcnt (by simp [cntU, hnil])
  obtain ⟨j, hj, hjm⟩ := List.mem_iff_getElem.mp hmem
  have hlen : 0 < r.frames.length := by omega
  have hh0 : r.clockHand % r.frames.length < r.frames.length := Nat.mod_lt _ hlen
  have hkL : (j + r.frames.length - r.clockHand % r.frames.length) % r.frames.length
      < r.frames.length := Nat.mod_lt _ hlen
  have hidx : (r.clockHand
        + (j + r.frames.length - r.clockHand % r.frames.length) % r.frames.length)
        % r.frames.length = j := by
    rw [Nat.add_mod_mod]
    conv_lhs => rw [← Nat.mod_add_mod]
    have harith : r.clockHand % r.frames.length
        + (j + r.frames.length - r.clockHand % r.frames.length)
        = j + r.frames.length := by omega
    rw [harith, Nat.add_mod_right, Nat.mod_eq_of_lt hj]
  obtain ⟨fid, r', hres⟩ :=
    victimLoop_terminates _ r (2 * r.frames.length + 1) hz
      ⟨m, by rw [hidx, List.getElem?_eq_getElem hj, hjm], hmp⟩ (by omega)
  exact ⟨fid, r', by unfold ClockReplacer.victim; rw [hres]; rfl⟩

/-- C10: across every sequence of `Pin`, `Unpin` and `Victim` calls from
the initial all-pinned state, the counter `clock_size_` (returned by
`Size`) equals the number of frame entries whose pinned bit is false, and
`Victim` yields a frame exactly when that count is nonzero. -/
theorem C10_replacer_size_invariant (n : Nat) (ops : List ROp) :
    (runROps n ops).clockSize = (runROps n ops).unpinnedCount ∧
    (((runROps n ops).victim).1.isSome ↔ (runROps n ops).clockSize ≠ 0) := by
  have hinv := RInv_run n ops
  refine ⟨by rw [unpinnedCount_eq_cntU]; exact hinv, ?_, ?_⟩
  · intro hsome hz
    have hnone : (runROps n ops).victim = (none, runROps n ops) := by
      unfold ClockReplacer.victim
      rw [victimLoop_succ, if_pos hz]
      rfl
    rw [hnone] at hsome
    simp at hsome
  · intro hz
    obtain ⟨fid, r', h⟩ := victim_finds (runROps n ops) hinv hz
    rw [h]
    rfl

/-! ## Probe arithmetic for the hash table

The probe state `(block_ind, offset)` of the source corresponds to the
flat slot index `pos = block_ind * BLOCK_ARRAY_SIZE + offset`; one loop
iteration moves `pos` to `(pos + 1) % (num_blocks * BLOCK_ARRAY_SIZE)` and
the one-circle test compares `pos + 1` (not yet wrapped) with `hash_val`. -/

theorem div_mod_char (N q r x : Nat) (hN : 0 < N) (hr : r < N) (hx : x = q * N + r) :
    x / N = q ∧ x % N = r := by
  subst hx
  constructor
  · rw [Nat.add_comm, Nat.add_mul_div_right _ _ hN, Nat.div_eq_of_lt hr, Nat.zero_add]
  · rw [Nat.add_comm, Nat.add_mul_mod_self_right, Nat.mod_eq_of_lt hr]

theorem no_early_full (L h i : Nat) (hh : h < L) (hi : i + 1 < L) :
    (h + i) % L + 1 ≠ h := by
  intro heq
  have hL : 0 < L := by omega
  rcases Nat.eq_zero_or_pos h with h0 | h0
  · omega
  · rcases Nat.lt_or_ge (h + i) L with hc | hc
    · rw [Nat.mod_eq_of_lt hc] at heq
      omega
    · have hsub : (h + i) % L = (h + i - L) % L := Nat.mod_eq_sub_mod hc
      rw [hsub, Nat.mod_eq_of_lt (by omega)] at heq
      omega

theorem cyc_index (L h q : Nat) (hh : h < L) (hq : q < L) :
    ∃ i, i < L ∧ (h + i) % L = q := by
  have hL : 0 < L := by omega
  refine ⟨(q + L - h) % L, Nat.mod_lt _ hL, ?_⟩
  rw [Nat.add_mod_mod]
  have harith : h + (q + L - h) = q + L := by omega
  rw [harith, Nat.add_mod_right, Nat.mod_eq_of_lt hq]

/-- One unfolding of the insert probe loop at nonzero fuel. -/
theorem insertLoop_unfold (N k v hashVal fuel : Nat) (t : HashTable) (bi off : Nat) :
    insertLoop N k v hashVal (fuel + 1) t bi off =
      (let s := t.slotAt N bi off
       if !s.readable then
         some (.ok { t with slots := t.slots.set (bi * N + off) ⟨true, true, k, v⟩ })
       else if s.key = k ∧ s.val = v then some .dup
       else if bi * N + (off + 1) = hashVal then some .full
       else if N ≤ off + 1 then insertLoop N k v hashVal fuel t ((bi + 1) % t.nb) 0
       else insertLoop N k v hashVal fuel t bi (off + 1)) := rfl

/-- The insert probe loop seen through the flat slot index: from a valid
position `pos < num_blocks * BLOCK_ARRAY_SIZE` entered as
`(pos / N, pos % N)`, one iteration inspects slot `pos`, tests
`pos + 1 = hash_val` for the full circle, and continues at
`(pos + 1) % (num_blocks * BLOCK_ARRAY_SIZE)`. -/
theorem insertLoop_step (N k v hashVal fuel : Nat) (t : HashTable) (pos : Nat)
    (hN : 0 < N) (hpos : pos < t.nb * N) :
    insertLoop N k v hashVal (fuel + 1) t (pos / N) (pos % N) =
      (let s := t.slots.getD pos Slot.empty
       if !s.readable then
         some (.ok { t with slots := t.slots.set pos ⟨true, true, k, v⟩ })
       else if s.key = k ∧ s.val = v then some .dup
       else if pos + 1 = hashVal then some .full
       else insertLoop N k v hashVal fuel t
         (((pos + 1) % (t.nb * N)) / N) (((pos + 1) % (t.nb * N)) % N)) := by
  have hmod : pos % N < N := Nat.mod_lt _ hN
  have spot : pos / N * N + pos % N = pos := by
    rw [Nat.mul_comm]
    exact Nat.div_add_mod pos N
  have hdivlt : pos / N < t.nb := by
    rcases Nat.lt_or_ge (pos / N) t.nb with h | h
    · exact h
    · exfalso
      have hge : t.nb * N ≤ pos / N * N := Nat.mul_le_mul_right N h
      omega
  rw [insertLoop_unfold]
  show (let s := t.slotAt N (pos / N) (pos % N); _) = _
  unfold HashTable.slotAt
  rw [spot]
  have hfull : pos / N * N + (pos % N + 1) = pos + 1 := by omega
  rw [hfull]
  by_cases h1 : (!(t.slots.getD pos Slot.empty).readable) = true
  · rw [if_pos h1, if_pos h1]
  · rw [if_neg h1, if_neg h1]
    by_cases h2 : (t.slots.getD pos Slot.empty).key = k ∧ (t.slots.getD pos Slot.empty).val = v
    · rw [if_pos h2, if_pos h2]
    · rw [if_neg h2, if_neg h2]
      by_cases h3 : pos + 1 = hashVal
      · rw [if_pos h3, if_pos h3]
      · rw [if_neg h3, if_neg h3]
        by_cases h4 : N ≤ pos % N + 1
        · rw [if_pos h4]
          have hNeq : pos % N + 1 = N := by omega
          have hmul : (pos / N + 1) * N = pos / N * N + N := Nat.succ_mul _ _
          rcases Nat.lt_or_ge (pos / N + 1) t.nb with h5 | h5
          · have hprod : (pos / N + 1) * N < t.nb * N := (Nat.mul_lt_mul_right hN).mpr h5
            have hlt : pos + 1 < t.nb * N := by omega
            rw [Nat.mod_eq_of_lt hlt]
            have hchar := div_mod_char N (pos / N + 1) 0 (pos + 1) hN hN (by omega)
            rw [hchar.1, hchar.2, Nat.mod_eq_of_lt h5]
          · have h5e : pos / N + 1 = t.nb := by omega
            have hLeq : pos + 1 = t.nb * N := by
              rw [← h5e, hmul]
              omega
            rw [hLeq, Nat.mod_self, Nat.zero_div, Nat.zero_mod, h5e, Nat.mod_self]
        · rw [if_neg h4]
          have hlt2 : pos % N + 1 < N := by omega
          have hb : pos / N * N + N ≤ t.nb * N := by
            have hle : pos / N + 1 ≤ t.nb := hdivlt
            have := Nat.mul_le_mul_right N hle
            rw [Nat.succ_mul] at this
            omega
          have hlt : pos + 1 < t.nb * N := by omega
          rw [Nat.mod_eq_of_lt hlt]
          have hchar := div_mod_char N (pos / N) (pos % N + 1) (pos + 1) hN hlt2 (by omega)
          rw [hchar.1, hchar.2]

/-- Skipping a run of readable, non-matching, non-circle-closing slots
leaves the insert probe loop at the shifted position with the
correspondingly reduced fuel. -/
theorem insertLoop_shift (N k v hashVal : Nat) (t : HashTable) (hN : 0 < N) :
    ∀ (j pos fuel : Nat), pos < t.nb * N → j ≤ fuel →
      (∀ i, i < j →
        (t.slots.getD ((pos + i) % (t.nb * N)) Slot.empty).readable = true ∧
        ¬((t.slots.getD ((pos + i) % (t.nb * N)) Slot.empty).key = k ∧
          (t.slots.getD ((pos + i) % (t.nb * N)) Slot.empty).val = v) ∧
        (pos + i) % (t.nb * N) + 1 ≠ hashVal) →
      insertLoop N k v hashVal fuel t (pos / N) (pos % N)
        = insertLoop N k v hashVal (fuel - j) t
            (((pos + j) % (t.nb * N)) / N) (((pos + j) % (t.nb * N)) % N) := by
  intro j
  induction j with
  | zero =>
    intro pos fuel hpos _ _
    rw [Nat.add_zero, Nat.mod_eq_of_lt hpos, Nat.sub_zero]
  | succ j ih =>
    intro pos fuel hpos hfuel hpre
    obtain ⟨f, rfl⟩ : ∃ f, fuel = f + 1 := ⟨fuel - 1, by omega⟩
    obtain ⟨hread, hnomatch, hnofull⟩ := by
      have h0 := hpre 0 (by omega)
      rwa [Nat.add_zero, Nat.mod_eq_of_lt hpos] at h0
    rw [insertLoop_step N k v hashVal f t pos hN hpos]
    show (if !(t.slots.getD pos Slot.empty).readable then _ else _) = _
    rw [if_neg (by rw [hread]; simp), if_neg hnomatch, if_neg hnofull]
    have hpos1 : (pos + 1) % (t.nb * N) < t.nb * N := Nat.mod_lt _ (by omega)
    have hrec := ih ((pos + 1) % (t.nb * N)) f hpos1 (by omega) ?_
    · rw [hrec]
      have hidx : ((pos + 1) % (t.nb * N) + j) % (t.nb * N) = (pos + (j + 1)) % (t.nb * N) := by
        rw [Nat.mod_add_mod]
        congr 1
        omega
      rw [hidx]
      congr 1
      omega
    · intro i hi
      have hidx2 : ((pos + 1) % (t.nb * N) + i) % (t.nb * N)
          = (pos + (i + 1)) % (t.nb * N) := by
        rw [Nat.mod_add_mod]
        congr 1
        omega
      rw [hidx2]
      exact hpre (i + 1) (by omega)

/-! ## Readable-pair bookkeeping -/

theorem readablePairs_cons_readable (s : Slot) (rest : List Slot) (hs : s.readable = true) :
    readablePairs (s :: rest) = (s.key, s.val) :: readablePairs rest := by
  simp [readablePairs, hs]

theorem readablePairs_cons_not (s : Slot) (rest : List Slot) (hs : s.readable = false) :
    readablePairs (s :: rest) = readablePairs rest := by
  simp [readablePairs, hs]

theorem readableCount_cons (s : Slot) (rest : List Slot) :
    readableCount (s :: rest) = (if s.readable then 1 else 0) + readableCount rest := rfl

theorem bool_eq_false_of_ne_true {b : Bool} (h : ¬(b = true)) : b = false := by
  cases hq : b
  · rfl
  · exact absurd hq h

theorem readablePairs_set (l : List Slot) (k v : Nat) :
    ∀ (pos : Nat), pos < l.length → (l.getD pos Slot.empty).readable = false →
      ∀ p, p ∈ readablePairs (l.set pos ⟨true, true, k, v⟩) ↔
        p = (k, v) ∨ p ∈ readablePairs l := by
  induction l with
  | nil => intro pos h; simp at h
  | cons s rest ih =>
    intro pos hlt hread p
    cases pos with
    | zero =>
      rw [List.getD_cons_zero] at hread
      rw [List.set_cons_zero, readablePairs_cons_readable _ _ rfl,
        readablePairs_cons_not _ _ hread]
      simp
    | succ q =>
      rw [List.getD_cons_succ] at hread
      have hq : q < rest.length := by simpa using hlt
      rw [List.set_cons_succ]
      by_cases hs : s.readable = true
      · rw [readablePairs_cons_readable _ _ hs, readablePairs_cons_readable _ _ hs]
        simp only [List.mem_cons]
        rw [ih q hq hread p]
        tauto
      · have hs2 := bool_eq_false_of_ne_true hs
        rw [readablePairs_cons_not _ _ hs2, readablePairs_cons_not _ _ hs2]
        exact ih q hq hread p

theorem readableCount_set (l : List Slot) (k v : Nat) :
    ∀ (pos : Nat), pos < l.length → (l.getD pos Slot.empty).readable = false →
      readableCount (l.set pos ⟨true, true, k, v⟩) = readableCount l + 1 := by
  induction l with
  | nil => intro pos h; simp at h
  | cons s rest ih =>
    intro pos hlt hread
    cases pos with
    | zero =>
      rw [List.getD_cons_zero] at hread
      rw [List.set_cons_zero, readableCount_cons, readableCount_cons, hread]
      simp
      omega
    | succ q =>
      rw [List.getD_cons_succ] at hread
      have hq : q < rest.length := by simpa using hlt
      rw [List.set_cons_succ, readableCount_cons, readableCount_cons, ih q hq hread]
      omega

theorem readable_at_mem (l : List Slot) :
    ∀ (pos : Nat), pos < l.length → (l.getD pos Slot.empty).readable = true →
      ((l.getD pos Slot.empty).key, (l.getD pos Slot.empty).val) ∈ readablePairs l := by
  induction l with
  | nil => intro pos h; simp at h
  | cons s rest ih =>
    intro pos hlt hread
    cases pos with
    | zero =>
      rw [List.getD_cons_zero] at hread ⊢
      rw [readablePairs_cons_readable _ _ hread]
      exact List.mem_cons_self _ _
    | succ q =>
      rw [List.getD_cons_succ] at hread ⊢
      have hq : q < rest.length := by simpa using hlt
      have hmem := ih q hq hread
      by_cases hs : s.readable = true
      · rw [readablePairs_cons_readable _ _ hs]
        exact List.mem_cons_of_mem _ hmem
      · rw [readablePairs_cons_not _ _ (bool_eq_false_of_ne_true hs)]
        exact hmem

theorem readableCount_le_length (l : List Slot) : readableCount l ≤ l.length := by
  induction l with
  | nil => exact Nat.le_refl 0
  | cons s rest ih =>
    rw [readableCount_cons, List.length_cons]
    by_cases hs : s.readable = true <;> simp [hs] <;> omega

theorem exists_not_readable (l : List Slot) (h : readableCount l < l.length) :
    ∃ q, q < l.length ∧ (l.getD q Slot.empty).readable = false := by
  induction l with
  | nil => simp at h
  | cons s rest ih =>
    by_cases hs : s.readable = true
    · rw [readableCount_cons, hs, if_pos rfl, List.length_cons] at h
      obtain ⟨q, hq, hqr⟩ := ih (by omega)
      refine ⟨q + 1, by simpa using hq, ?_⟩
      rwa [List.getD_cons_succ]
    · refine ⟨0, by simp, ?_⟩
      rw [List.getD_cons_zero]
      exact bool_eq_false_of_ne_true hs

theorem readableCount_replicate (n : Nat) :
    readableCount (List.replicate n Slot.empty) = 0 := by
  induction n with
  | zero => rfl
  | succ m ih =>
    rw [List.replicate_succ, readableCount_cons, ih]
    rfl

theorem readablePairs_replicate (n : Nat) :
    readablePairs (List.replicate n Slot.empty) = [] := by
  induction n with
  | zero => rfl
  | succ m ih =>
    rw [List.replicate_succ, readablePairs_cons_not _ _ rfl]
    exact ih

theorem mem_readablePairs (l : List Slot) (p : Nat × Nat) :
    p ∈ readablePairs l ↔ ∃ s ∈ l, s.readable = true ∧ p = (s.key, s.val) := by
  induction l with
  | nil => simp [readablePairs]
  | cons s rest ih =>
    by_cases hs : s.readable = true
    · rw [readablePairs_cons_readable _ _ hs]
      simp only [List.mem_cons, ih]
      constructor
      · rintro (h | ⟨x, hx, hr, hp⟩)
        · exact ⟨s, Or.inl rfl, hs, h⟩
        · exact ⟨x, Or.inr hx, hr, hp⟩
      · rintro ⟨x, hx | hx, hr, hp⟩
        · exact Or.inl (by rw [hp, hx])
        · exact Or.inr ⟨x, hx, hr, hp⟩
    · rw [readablePairs_cons_not _ _ (bool_eq_false_of_ne_true hs)]
      rw [ih]
      constructor
      · rintro ⟨x, hx, hr, hp⟩
        exact ⟨x, List.mem_cons_of_mem s hx, hr, hp⟩
      · rintro ⟨x, hx, hr, hp⟩
        rcases List.mem_cons.mp hx with hx | hx
        · exact absurd (hx ▸ hr) hs
        · exact ⟨x, hx, hr, hp⟩

theorem eqAsSets_eq_true (l1 l2 : List (Nat × Nat)) (h : ∀ p, p ∈ l1 ↔ p ∈ l2) :
    eqAsSets l1 l2 = true := by
  unfold eqAsSets
  rw [Bool.and_eq_true, List.all_eq_true, List.all_eq_true]
  constructor
  · intro p hp
    exact List.elem_eq_true_of_mem ((h p).mp hp)
  · intro p hp
    exact List.elem_eq_true_of_mem ((h p).mpr hp)

/-! ## Outcome of the internal insert probe -/

theorem internalInsert_probe_dup (N : Nat) (hashFn : Nat → Nat) (t : HashTable)
    (k v j : Nat) (hN : 0 < N) (hLpos : 0 < t.nb * N) (hj : j < t.nb * N)
    (hpre : ∀ i, i < j →
      (t.slots.getD ((hashFn k % (t.nb * N) + i) % (t.nb * N)) Slot.empty).readable = true ∧
      ¬((t.slots.getD ((hashFn k % (t.nb * N) + i) % (t.nb * N)) Slot.empty).key = k ∧
        (t.slots.getD ((hashFn k % (t.nb * N) + i) % (t.nb * N)) Slot.empty).val = v))
    (hread : (t.slots.getD ((hashFn k % (t.nb * N) + j) % (t.nb * N)) Slot.empty).readable = true)
    (hkey : (t.slots.getD ((hashFn k % (t.nb * N) + j) % (t.nb * N)) Slot.empty).key = k)
    (hval : (t.slots.getD ((hashFn k % (t.nb * N) + j) % (t.nb * N)) Slot.empty).val = v) :
    internalInsert N hashFn t k v = some .dup := by
  have hh : hashFn k % (t.nb * N) < t.nb * N := Nat.mod_lt _ hLpos
  have hpre2 : ∀ i, i < j →
      (t.slots.getD ((hashFn k % (t.nb * N) + i) % (t.nb * N)) Slot.empty).readable = true ∧
      ¬((t.slots.getD ((hashFn k % (t.nb * N) + i) % (t.nb * N)) Slot.empty).key = k ∧
        (t.slots.getD ((hashFn k % (t.nb * N) + i) % (t.nb * N)) Slot.empty).val = v) ∧
      (hashFn k % (t.nb * N) + i) % (t.nb * N) + 1 ≠ hashFn k % (t.nb * N) := by
    intro i hi
    exact ⟨(hpre i hi).1, (hpre i hi).2, no_early_full _ _ _ hh (by omega)⟩
  have hshift := insertLoop_shift N k v (hashFn k % (t.nb * N)) t hN j
    (hashFn k % (t.nb * N)) (t.nb * N + 1) hh (by omega) hpre2
  show insertLoop N k v (hashFn k % (t.nb * N)) (t.nb * N + 1) t
    (hashFn k % (t.nb * N) / N) (hashFn k % (t.nb * N) % N) = some .dup
  rw [hshift]
  obtain ⟨f, hf⟩ : ∃ f, t.nb * N + 1 - j = f + 1 := ⟨t.nb * N - j, by omega⟩
  rw [hf, insertLoop_step N k v _ f t _ hN (Nat.mod_lt _ hLpos)]
  show (if !(t.slots.getD ((hashFn k % (t.nb * N) + j) % (t.nb * N)) Slot.empty).readable
    then _ else _) = _
  rw [if_neg (by rw [hread]; simp), if_pos ⟨hkey, hval⟩]

theorem internalInsert_probe_ok (N : Nat) (hashFn : Nat → Nat) (t : HashTable)
    (k v j : Nat) (hN : 0 < N) (hLpos : 0 < t.nb * N) (hj : j < t.nb * N)
    (hpre : ∀ i, i < j →
      (t.slots.getD ((hashFn k % (t.nb * N) + i) % (t.nb * N)) Slot.empty).readable = true ∧
      ¬((t.slots.getD ((hashFn k % (t.nb * N) + i) % (t.nb * N)) Slot.empty).key = k ∧
        (t.slots.getD ((hashFn k % (t.nb * N) + i) % (t.nb * N)) Slot.empty).val = v))
    (hok : (t.slots.getD ((hashFn k % (t.nb * N) + j) % (t.nb * N)) Slot.empty).readable = false) :
    internalInsert N hashFn t k v
      = some (.ok ⟨t.nb,
          t.slots.set ((hashFn k % (t.nb * N) + j) % (t.nb * N)) ⟨true, true, k, v⟩⟩) := by
  have hh : hashFn k % (t.nb * N) < t.nb * N := Nat.mod_lt _ hLpos
  have hpre2 : ∀ i, i < j →
      (t.slots.getD ((hashFn k % (t.nb * N) + i) % (t.nb * N)) Slot.empty).readable = true ∧
      ¬((t.slots.getD ((hashFn k % (t.nb * N) + i) % (t.nb * N)) Slot.empty).key = k ∧
        (t.slots.getD ((hashFn k % (t.nb * N) + i) % (t.nb * N)) Slot.empty).val = v) ∧
      (hashFn k % (t.nb * N) + i) % (t.nb * N) + 1 ≠ hashFn k % (t.nb * N) := by
    intro i hi
    exact ⟨(hpre i hi).1, (hpre i hi).2, no_early_full _ _ _ hh (by omega)⟩
  have hshift := insertLoop_shift N k v (hashFn k % (t.nb * N)) t hN j
    (hashFn k % (t.nb * N)) (t.nb * N + 1) hh (by omega) hpre2
  show insertLoop N k v (hashFn k % (t.nb * N)) (t.nb * N + 1) t
    (hashFn k % (t.nb * N) / N) (hashFn k % (t.nb * N) % N) = _
  rw [hshift]
  obtain ⟨f, hf⟩ : ∃ f, t.nb * N + 1 - j = f + 1 := ⟨t.nb * N - j, by omega⟩
  rw [hf, insertLoop_step N k v _ f t _ hN (Nat.mod_lt _ hLpos)]
  show (if !(t.slots.getD ((hashFn k % (t.nb * N) + j) % (t.nb * N)) Slot.empty).readable
    then _ else _) = _
  rw [if_pos (by rw [hok]; rfl)]

theorem internalInsert_with_free (N : Nat) (hashFn : Nat → Nat) (t : HashTable)
    (k v : Nat) (hN : 0 < N) (hLpos : 0 < t.nb * N)
    (hL : t.slots.length = t.nb * N)
    (hfree : ∃ q, q < t.nb * N ∧ (t.slots.getD q Slot.empty).readable = false) :
    (∃ pos, pos < t.nb * N ∧ (t.slots.getD pos Slot.empty).readable = false ∧
      internalInsert N hashFn t k v
        = some (.ok ⟨t.nb, t.slots.set pos ⟨true, true, k, v⟩⟩)) ∨
    ((k, v) ∈ readablePairs t.slots ∧ internalInsert N hashFn t k v = some .dup) := by
  classical
  have hh : hashFn k % (t.nb * N) < t.nb * N := Nat.mod_lt _ hLpos
  obtain ⟨q, hq, hqr⟩ := hfree
  obtain ⟨i0, hi0L, hi0⟩ := cyc_index (t.nb * N) (hashFn k % (t.nb * N)) q hh hq
  have hex : ∃ i,
      (t.slots.getD ((hashFn k % (t.nb * N) + i) % (t.nb * N)) Slot.empty).readable = false ∨
      ((t.slots.getD ((hashFn k % (t.nb * N) + i) % (t.nb * N)) Slot.empty).key = k ∧
       (t.slots.getD ((hashFn k % (t.nb * N) + i) % (t.nb * N)) Slot.empty).val = v) :=
    ⟨i0, Or.inl (by rw [hi0]; exact hqr)⟩
  have hPj := Nat.find_spec hex
  have hjmin := fun i (hi : i < Nat.find hex) => Nat.find_min hex hi
  have hjle : Nat.find hex ≤ i0 := Nat.find_min' hex (Or.inl (by rw [hi0]; exact hqr))
  have hjL : Nat.find hex < t.nb * N := by omega
  have hpre : ∀ i, i < Nat.find hex →
      (t.slots.getD ((hashFn k % (t.nb * N) + i) % (t.nb * N)) Slot.empty).readable = true ∧
      ¬((t.slots.getD ((hashFn k % (t.nb * N) + i) % (t.nb * N)) Slot.empty).key = k ∧
        (t.slots.getD ((hashFn k % (t.nb * N) + i) % (t.nb * N)) Slot.empty).val = v) := by
    intro i hi
    have hni := hjmin i hi
    rw [not_or] at hni
    refine ⟨?_, hni.2⟩
    cases hb : (t.slots.getD ((hashFn k % (t.nb * N) + i) % (t.nb * N)) Slot.empty).readable
    · exact absurd hb hni.1
    · rfl
  by_cases hr : (t.slots.getD ((hashFn k % (t.nb * N) + Nat.find hex) % (t.nb * N))
      Slot.empty).readable = true
  · have hmatch : (t.slots.getD ((hashFn k % (t.nb * N) + Nat.find hex) % (t.nb * N))
        Slot.empty).key = k ∧
        (t.slots.getD ((hashFn k % (t.nb * N) + Nat.find hex) % (t.nb * N))
          Slot.empty).val = v := by
      rcases hPj with hc | hc
      · rw [hc] at hr
        exact absurd hr (by simp)
      · exact hc
    refine Or.inr ⟨?_, internalInsert_probe_dup N hashFn t k v (Nat.find hex) hN hLpos hjL
      hpre hr hmatch.1 hmatch.2⟩
    have hlt : (hashFn k % (t.nb * N) + Nat.find hex) % (t.nb * N) < t.slots.length := by
      rw [hL]
      exact Nat.mod_lt _ hLpos
    have hmem := readable_at_mem t.slots _ hlt hr
    rwa [hmatch.1, hmatch.2] at hmem
  · have hrf := bool_eq_false_of_ne_true hr
    exact Or.inl ⟨(hashFn k % (t.nb * N) + Nat.find hex) % (t.nb * N),
      Nat.mod_lt _ hLpos, hrf,
      internalInsert_probe_ok N hashFn t k v (Nat.find hex) hN hLpos hjL hpre hrf⟩

/-- One unfolding of the public insert's retry loop at nonzero rounds. -/
theorem insertPub_succ (N : Nat) (hashFn : Nat → Nat) (rounds : Nat) (t : HashTable)
    (k v : Nat) :
    insertPub N hashFn (rounds + 1) t k v =
      match internalInsert N hashFn t k v with
      | none => none
      | some (.ok t1) => some (t1, true)
      | some .dup => some (t, false)
      | some .full =>
        match resize N hashFn t (t.nb * N) with
        | none => none
        | some t1 => insertPub N hashFn rounds t1 k v := rfl

/-- One unfolding of the resize copy loop on a cons cell. -/
theorem reinsertSlots_cons (N : Nat) (hashFn : Nat → Nat) (s : Slot) (rest : List Slot)
    (t : HashTable) :
    reinsertSlots N hashFn (s :: rest) t =
      if s.readable then
        match internalInsert N hashFn t s.key s.val with
        | none => none
        | some (.ok t1) => reinsertSlots N hashFn rest t1
        | some .dup => reinsertSlots N hashFn rest t
        | some .full => reinsertSlots N hashFn rest t
      else reinsertSlots N hashFn rest t := rfl

/-- The resize copy loop succeeds and preserves the set of readable pairs,
as long as the accumulator table always keeps a free slot: its readable
count plus the readable count still to be copied stays within half its
capacity. -/
theorem reinsert_preserves (N : Nat) (hashFn : Nat → Nat) (L0 : Nat) :
    ∀ (old : List Slot) (acc : HashTable),
      acc.slots.length = 2 * L0 → acc.nb * N = 2 * L0 →
      readableCount acc.slots + readableCount old ≤ L0 →
      ∃ res, reinsertSlots N hashFn old acc = some res ∧
        res.slots.length = acc.slots.length ∧ res.nb = acc.nb ∧
        (∀ p, p ∈ readablePairs res.slots ↔
          p ∈ readablePairs acc.slots ∨ p ∈ readablePairs old) := by
  intro old
  induction old with
  | nil =>
    intro acc h1 h2 h3
    exact ⟨acc, rfl, rfl, rfl, fun p => by simp [readablePairs]⟩
  | cons s rest ih =>
    intro acc h1 h2 h3
    by_cases hs : s.readable = true
    · have hcnt : readableCount (s :: rest) = 1 + readableCount rest := by
        rw [readableCount_cons, hs, if_pos rfl]
      have hL0 : 1 ≤ L0 := by omega
      have hLpos : 0 < acc.nb * N := by omega
      have hN : 0 < N := by
        rcases Nat.eq_zero_or_pos N with h | h
        · rw [h, Nat.mul_zero] at h2
          omega
        · exact h
      have hfree : ∃ q, q < acc.nb * N ∧ (acc.slots.getD q Slot.empty).readable = false := by
        have hlt : readableCount acc.slots < acc.slots.length := by omega
        obtain ⟨q, hq, hqr⟩ := exists_not_readable acc.slots hlt
        exact ⟨q, by omega, hqr⟩
      have hLacc : acc.slots.length = acc.nb * N := by omega
      rcases internalInsert_with_free N hashFn acc s.key s.val hN hLpos hLacc hfree with
        ⟨pos, hposlt, hposR, heq⟩ | ⟨hmemdup, heq⟩
      · rw [reinsertSlots_cons, if_pos hs]
        simp only [heq]
        have hposlen : pos < acc.slots.length := by omega
        have hcnt2 : readableCount (acc.slots.set pos ⟨true, true, s.key, s.val⟩)
            = readableCount acc.slots + 1 :=
          readableCount_set acc.slots _ _ pos hposlen hposR
        obtain ⟨res, hres, hrl, hrn, hrm⟩ :=
          ih ⟨acc.nb, acc.slots.set pos ⟨true, true, s.key, s.val⟩⟩
            (by show (acc.slots.set pos _).length = 2 * L0; rw [List.length_set]; exact h1)
            h2
            (by show readableCount (acc.slots.set pos _) + readableCount rest ≤ L0
                omega)
        refine ⟨res, hres, ?_, hrn, ?_⟩
        · rw [hrl]
          show (acc.slots.set pos _).length = acc.slots.length
          exact List.length_set acc.slots pos _
        · intro p
          rw [hrm p]
          show p ∈ readablePairs (acc.slots.set pos ⟨true, true, s.key, s.val⟩) ∨ _ ↔ _
          rw [readablePairs_set acc.slots s.key s.val pos hposlen hposR p,
            readablePairs_cons_readable s rest hs]
          simp only [List.mem_cons]
          tauto
      · rw [reinsertSlots_cons, if_pos hs]
        simp only [heq]
        obtain ⟨res, hres, hrl, hrn, hrm⟩ := ih acc h1 h2 (by omega)
        refine ⟨res, hres, hrl, hrn, ?_⟩
        intro p
        rw [hrm p, readablePairs_cons_readable s rest hs]
        simp only [List.mem_cons]
        constructor
        · rintro (h | h)
          · exact Or.inl h
          · exact Or.inr (Or.inr h)
        · rintro (h | h | h)
          · exact Or.inl h
          · exact Or.inl (h ▸ hmemdup)
          · exact Or.inr h
    · have hs2 := bool_eq_false_of_ne_true hs
      rw [reinsertSlots_cons, if_neg hs]
      have hcnt : readableCount (s :: rest) = readableCount rest := by
        rw [readableCount_cons, hs2]
        simp
      obtain ⟨res, hres, hrl, hrn, hrm⟩ := ih acc h1 h2 (by omega)
      refine ⟨res, hres, hrl, hrn, ?_⟩
      intro p
      rw [hrm p, readablePairs_cons_not s rest hs2]

/-! ## Claim theorems: hash table -/

/-- Table reached from `tDup` by the fourth `Insert(0, 9)`: the pair
(0, 9) is now readable in slots 0 and 1. -/
def tDup2 : HashTable := ⟨1, [⟨true, true, 0, 9⟩, ⟨true, true, 0, 9⟩, Slot.empty, Slot.empty]⟩

/-- One block of four slots whose slot 3 holds the readable pair (3, 9):
witness table for the amended duplicate-rejection claim. -/
def tSingle : HashTable := ⟨1, [Slot.empty, Slot.empty, Slot.empty, ⟨true, true, 3, 9⟩]⟩

/-- C4: the claim says every probe loop terminates within one full cycle,
also when the probe starts at offset 0 of a block. The table `tFull2`
(one block, `BLOCK_ARRAY_SIZE = 2`, both slots readable) is reached by
`Insert(1, 1); Insert(2, 2)` under the identity hash, and inserting
(0, 5) — whose hash value is 0 — never terminates: the one-circle test
`block_ind * BLOCK_ARRAY_SIZE + offset == hash_val` is evaluated after
`offset++`, so its left side ranges over [1, 2] and never equals 0; the
loop cycles through the two slots forever, for every fuel bound. -/
theorem C4_insert_probe_diverges :
    insertPub 2 idHash 1 (HashTable.empty 2 1) 1 1
      = some (⟨1, [Slot.empty, ⟨true, true, 1, 1⟩]⟩, true) ∧
    insertPub 2 idHash 1 ⟨1, [Slot.empty, ⟨true, true, 1, 1⟩]⟩ 2 2 = some (tFull2, true) ∧
    internalInsert 2 idHash tFull2 0 5 = none ∧
    ∀ fuel, insertLoop 2 0 5 0 fuel tFull2 0 0 = none := by
  refine ⟨by decide, by decide, by decide, ?_⟩
  have key : ∀ fuel, insertLoop 2 0 5 0 fuel tFull2 0 0 = none
      ∧ insertLoop 2 0 5 0 fuel tFull2 0 1 = none := by
    intro fuel
    induction fuel with
    | zero => exact ⟨rfl, rfl⟩
    | succ f ih => exact ⟨ih.2, ih.1⟩
  exact fun fuel => (key fuel).1

/-- C6 counterexample: the claim says that whenever (k, v) is already
stored readable, `Insert(k, v)` returns false and leaves the table
unchanged. In the reachable table `tDup` (insert (0,7), insert (0,9),
remove (0,7) under the identity hash), the pair (0, 9) is readable in
slot 1, yet `Insert(0, 9)` claims the slot-0 tombstone before the probe
reaches the duplicate: it returns true, and `GetValue(0)` afterwards
contains 9 twice. -/
theorem C6_counterexample :
    insertPub 4 idHash 2 tEmpty4 0 7 = some (tA, true) ∧
    insertPub 4 idHash 2 tA 0 9 = some (tB, true) ∧
    removeKV 4 idHash tB 0 7 = some (tDup, true) ∧
    (0, 9) ∈ readablePairs tDup.slots ∧
    insertPub 4 idHash 2 tDup 0 9 = some (tDup2, true) ∧
    (getValue 4 idHash tDup2 0).map (fun r => r.1.count 9) = some 2 := by decide

/-- C6 amended: if (k, v) is stored readable at the j-th slot of the probe
sequence of k, and every earlier probe slot is readable and differs from
(k, v), then `Insert(k, v)` returns false and leaves the table
unchanged. -/
theorem C6_duplicate_rejected_amended (N : Nat) (hashFn : Nat → Nat) (t : HashTable)
    (k v j rounds : Nat) (hN : 0 < N) (hnb : 0 < t.nb)
    (hL : t.slots.length = t.nb * N) (hj : j < t.nb * N)
    (hpre : ∀ i, i < j →
      (t.slots.getD ((hashFn k % (t.nb * N) + i) % (t.nb * N)) Slot.empty).readable = true ∧
      ¬((t.slots.getD ((hashFn k % (t.nb * N) + i) % (t.nb * N)) Slot.empty).key = k ∧
        (t.slots.getD ((hashFn k % (t.nb * N) + i) % (t.nb * N)) Slot.empty).val = v))
    (hread : (t.slots.getD ((hashFn k % (t.nb * N) + j) % (t.nb * N)) Slot.empty).readable = true)
    (hkey : (t.slots.getD ((hashFn k % (t.nb * N) + j) % (t.nb * N)) Slot.empty).key = k)
    (hval : (t.slots.getD ((hashFn k % (t.nb * N) + j) % (t.nb * N)) Slot.empty).val = v) :
    insertPub N hashFn (rounds + 1) t k v = some (t, false) := by
  have hLpos : 0 < t.nb * N := Nat.mul_pos hnb hN
  have hdup := internalInsert_probe_dup N hashFn t k v j hN hLpos hj hpre hread hkey hval
  rw [insertPub_succ]
  simp only [hdup]

/-- C6 witness: the amended theorem applied to `tSingle`, whose slot 3
holds (3, 9), with the identity hash (so the probe starts at the
duplicate itself, j = 0). -/
theorem C6_duplicate_rejected_amended_witness :
    insertPub 4 idHash 1 tSingle 3 9 = some (tSingle, false) :=
  C6_duplicate_rejected_amended 4 idHash tSingle 3 9 0 0 (by decide) (by decide)
    (by decide) (by decide) (fun i hi => absurd hi (Nat.not_lt_zero i))
    (by decide) (by decide) (by decide)

/-- C5 counterexample: the claim says `Resize` preserves the multiset of
readable (key, value) pairs. The reachable table `tDup2` stores (0, 9)
twice; `Resize(4)` re-inserts the first copy and rejects the second as a
duplicate, so the multiset count of (0, 9) drops from 2 to 1. -/
theorem C5_counterexample :
    insertPub 4 idHash 2 tEmpty4 0 7 = some (tA, true) ∧
    insertPub 4 idHash 2 tA 0 9 = some (tB, true) ∧
    removeKV 4 idHash tB 0 7 = some (tDup, true) ∧
    insertPub 4 idHash 2 tDup 0 9 = some (tDup2, true) ∧
    (readablePairs tDup2.slots).count (0, 9) = 2 ∧
    (resize 4 idHash tDup2 4).map (fun t1 => (readablePairs t1.slots).count (0, 9))
      = some 1 := by decide

/-- C5 amended: `Resize(GetSize())` terminates and preserves the SET of
readable (key, value) pairs — duplicate copies of a pair collapse to a
single copy, every other pair survives, and no pair appears that was not
present before. -/
theorem C5_resize_preserves_set (N : Nat) (hashFn : Nat → Nat) (t : HashTable)
    (hN : 0 < N) (hL : t.slots.length = t.nb * N) :
    resizePreservesSet N hashFn t = some true := by
  have hnbc : newBlockCount N (t.nb * N) = 2 * t.nb := by
    unfold newBlockCount
    have hassoc : 2 * (t.nb * N) = 2 * t.nb * N := by ring
    rw [hassoc, Nat.mul_div_cancel _ hN, Nat.mul_mod_left]
    simp
  unfold resizePreservesSet resize
  rw [hnbc]
  obtain ⟨res, hres, hrl, hrn, hrm⟩ := reinsert_preserves N hashFn (t.nb * N) t.slots
    (HashTable.empty N (2 * t.nb))
    (by show (List.replicate (2 * t.nb * N) Slot.empty).length = 2 * (t.nb * N)
        rw [List.length_replicate]
        ring)
    (by show 2 * t.nb * N = 2 * (t.nb * N); ring)
    (by show readableCount (List.replicate (2 * t.nb * N) Slot.empty)
          + readableCount t.slots ≤ t.nb * N
        rw [readableCount_replicate]
        have := readableCount_le_length t.slots
        omega)
  rw [hres]
  simp only [Option.map_some']
  congr 1
  apply eqAsSets_eq_true
  intro p
  rw [hrm p]
  show p ∈ readablePairs (List.replicate (2 * t.nb * N) Slot.empty) ∨ _ ↔ _
  rw [readablePairs_replicate]
  simp

/-- C5 witness: the amended theorem applied to the duplicate-carrying
table `tDup2` with the identity hash. -/
theorem C5_resize_preserves_set_witness :
    resizePreservesSet 4 idHash tDup2 = some true :=
  C5_resize_preserves_set 4 idHash tDup2 (by decide) (by decide)

end BusTub
